import Mathlib

/-!
Verification development for the srcdom package: a shallow embedding of the
domain model (Package / Type / Func / Value / Field / Tag), the struct-tag
mini-parser, the type-expression renderer, the declaration scanner and the
build-constraint filter, together with theorems settling the specification
claims against the code.

Modelling conventions:
* Go `map[string]int` indexes are modelled as association lists where insertion
  prepends and lookup takes the first match, realizing Go's overwrite-on-insert
  ("last write wins") semantics.
* Go byte-level string scanning is modelled on `List Char`; all inputs that the
  repository feeds through these scanners are ASCII, where the two coincide.
* Functions that can panic in Go (the renderer's hard internal failures) return
  `Option`, `none` standing for the crash; error returns are a separate layer.
-/

namespace Srcdom

/-- Association-list model of a Go `map[string]int`. -/
abbrev Idx := List (String × Nat)

/-- Lookup: first match wins; insertions prepend, so this is last-write-wins. -/
def idxLookup (m : Idx) (k : String) : Option Nat :=
  match m with
  | [] => none
  | (k', v) :: rest => if k' = k then some v else idxLookup rest k

/-- Map insertion: prepend the new binding (overwrites for `idxLookup`). -/
def idxPut (m : Idx) (k : String) (v : Nat) : Idx :=
  (k, v) :: m

/-- Import represents an import (`srcdom.go`). -/
structure Import where
  name : String
  path : String
deriving DecidableEq, Repr

/-- Var represents a variable: a parameter or result (`srcdom.go`). -/
structure Var where
  name : String
  type : String
deriving DecidableEq, Repr

/-- Value represents a value or const (`srcdom.go`). -/
structure Value where
  name : String
  type : String
  isConst : Bool
deriving DecidableEq, Repr

/-- TagValue represents content of a tag (`srcdom.go`). -/
structure TagValue where
  name : String
  raw : String
  values : List String
deriving DecidableEq, Repr

/-- Tag represents a tag for a field (`srcdom.go`). -/
structure Tag where
  raw : String
  values : List TagValue
  valueIdx : Idx
deriving DecidableEq, Repr

/-- Field represents a struct member (`srcdom.go`). -/
structure Field where
  name : String
  type : String
  tag : Option Tag
deriving DecidableEq, Repr

/-- Func represents a function (`srcdom.go`). -/
structure Func where
  name : String
  params : List Var
  results : List Var
deriving DecidableEq, Repr

/-- GoType models the source's `Type` struct (`srcdom.go`); the source name
`Type` collides with Lean's universe keyword. -/
structure GoType where
  name : String
  defined : Bool
  isStruct : Bool
  isInterface : Bool
  embeds : List String
  embedIdx : Idx
  fields : List Field
  fieldIdx : Idx
  methods : List Func
  methodIdx : Idx
deriving DecidableEq, Repr

/-- Go zero-valued `&Type\x7bName: name\x7d` as built by `assureType`. -/
def GoType.new (name : String) : GoType :=
  ⟨name, false, false, false, [], [], [], [], [], []⟩

/-- Package represents a go package (`srcdom.go`). -/
structure Package where
  name : String
  imports : List Import
  values : List Value
  funcs : List Func
  funIdx : Idx
  types : List GoType
  typIdx : Idx
deriving DecidableEq, Repr

/-- A fresh `&Package\x7bName: name\x7d` as built by `ScanFile`. -/
def Package.new (name : String) : Package :=
  ⟨name, [], [], [], [], [], []⟩

/-! Tag machinery (`srcdom.go`: `parseTag`, `parseTagValue`, `match`, `has`). -/

/-- Character class of the Go regexp `\s` used by `tagValueRx`. -/
def isRegexSpace (c : Char) : Bool :=
  c = ' ' || c = '\t' || c = '\n' || c = '\x0c' || c = '\r'

/-- Splitting around maximal whitespace runs, as `tagValueRx.Split(s, -1)` does:
pieces between matches are kept, including empty leading/trailing pieces. -/
def splitWsAux : List Char → List Char → Bool → List String
  | [], acc, _ => [acc.reverse.asString]
  | c :: rest, acc, inWs =>
    if isRegexSpace c then
      if inWs then splitWsAux rest acc true
      else acc.reverse.asString :: splitWsAux rest [] true
    else splitWsAux rest (c :: acc) false

/-- Model of `tagValueRx.Split(s, -1)` where `tagValueRx` is the regexp `\s+`. -/
def splitWs (s : String) : List String :=
  splitWsAux s.data [] false

/-- parseTagValue builds a TagValue from a key and unquoted value
(`srcdom.go`). -/
def parseTagValue (name s : String) : TagValue :=
  ⟨name, s, splitWs s⟩

/-- putTagValue appends the entry and points the index at it (`srcdom.go`). -/
def Tag.putTagValue (tag : Tag) (v : TagValue) : Tag :=
  { tag with
    valueIdx := idxPut tag.valueIdx v.name tag.values.length
    values := tag.values ++ [v] }

/-- has reports whether the whitespace-split token list contains `value`
(`srcdom.go`). -/
def TagValue.has (tv : TagValue) (value : String) : Bool :=
  tv.values.contains value

/-- match reports whether an entry has the key and, when a value constraint is
given, whether its token list contains it (`srcdom.go`; the source name
`match` is a Lean keyword). -/
def Tag.matchKV (tag : Tag) (name : String) (value : Option String) : Bool :=
  tag.values.any fun v =>
    v.name = name &&
      (match value with
       | none => true
       | some s => v.has s)

/-- Key scanning predicate of `parseTag`: bytes above 0x20 that are not `:`,
the double quote, or DEL. -/
def isTagKeyChar (c : Char) : Bool :=
  c.toNat > 0x20 && c ≠ ':' && c ≠ '"' && c.toNat ≠ 0x7f

/-- Scan of the quoted value in `parseTag`: consume until an unescaped closing
quote, a backslash skipping the next byte; returns the chars between the
quotes (verbatim, escapes kept) and the remainder after the closing quote.
`none` models running off the end (unterminated value). -/
def scanQ : List Char → Option (List Char × List Char)
  | [] => none
  | '"' :: rest => some ([], rest)
  | '\\' :: [] => none
  | '\\' :: c :: rest => (scanQ rest).map fun p => ('\\' :: c :: p.1, p.2)
  | c :: rest => (scanQ rest).map fun p => (c :: p.1, p.2)

/-- Escape table of `strconv.Unquote` for double-quoted strings. -/
def escChar : Char → Option Char
  | 'a' => some '\x07'
  | 'b' => some '\x08'
  | 'f' => some '\x0c'
  | 'n' => some '\n'
  | 'r' => some '\r'
  | 't' => some '\t'
  | 'v' => some '\x0b'
  | '\\' => some '\\'
  | '"' => some '"'
  | _ => none

/-- Backslash unescaping of the interior of a double-quoted Go string literal,
modelling `strconv.Unquote`. Numeric escapes (`\x`, `\u`, octal) are modelled
as failures; the repository's tag inputs never use them. -/
def unescape : List Char → Option (List Char)
  | [] => some []
  | '\\' :: [] => none
  | '\\' :: e :: rest =>
    match escChar e with
    | some c => (unescape rest).map (c :: ·)
    | none => none
  | '"' :: _ => none
  | '\n' :: _ => none
  | c :: rest => (unescape rest).map (c :: ·)

/-- One pass of the `parseTag` loop (`srcdom.go`), fuelled: each recursive step
consumes at least the key and quoted value, so `length + 1` fuel suffices. -/
def parseTagAux : Nat → List Char → Tag → Tag
  | 0, _, dst => dst
  | fuel + 1, tag, dst =>
    -- Skip leading space (0x20 only).
    let tag := tag.dropWhile (· = ' ')
    if tag.isEmpty then dst
    else
      -- Scan to colon.
      let key := tag.takeWhile isTagKeyChar
      let rest := tag.drop key.length
      match key, rest with
      | [], _ => dst
      | _, ':' :: '"' :: _ =>
        -- name := tag[:i]; tag = tag[i+1:]; scan the quoted value.
        match scanQ (rest.drop 2) with
        | none => dst
        | some (inner, rest') =>
          match unescape inner with
          | none => dst
          | some chars =>
            parseTagAux fuel rest'
              (dst.putTagValue (parseTagValue key.asString chars.asString))
      | _, _ => dst

/-- parseTag decodes a raw tag string into a Tag (`srcdom.go`). -/
def parseTag (s : String) : Tag :=
  parseTagAux (s.length + 1) s.data ⟨s, [], []⟩

/-- TagValue lookup (`srcdom.go` method `Tag.TagValue`): note that the found
branch of the source returns `tag.Values[idx], false`. -/
def Tag.tagValueFn (tag : Tag) (n : String) : Option TagValue × Bool :=
  match idxLookup tag.valueIdx n with
  | none => (none, false)
  | some idx => (tag.values.get? idx, false)

/-- FieldsByTag collects fields which match with query (`srcdom.go`): the zero
values `name = ""` and `value = nil` of the source are used for matching and
`tagQuery` is never consulted. -/
def GoType.fieldsByTag (typ : GoType) (tagQuery : String) : List Field :=
  typ.fields.filter fun f =>
    match f.tag with
    | none => false
    | some t => t.matchKV "" none

/-! The syntax-tree fragment consumed by the scanner (`go/ast` node kinds that
the repository inspects), and the recursive type renderer (`types.go`:
`baseTypeName`, `typeString`, `firstName`, `toVar`, `toVarArray`,
`typesString`, `toFunc`; `srcdom.go`: `Func.writeResults`). -/

/-- Channel direction (`ast.ChanDir`): the three values the renderer accepts;
any other direction value panics in the source. -/
inductive ChanDir where
  | sendRecv
  | send
  | recv
deriving DecidableEq, Repr

/-- Literal kind of a struct-tag literal (`token.STRING` versus anything
else, which `toTag` rejects). -/
inductive LitKind where
  | stringLit
  | otherLit
deriving DecidableEq, Repr

/-- A basic literal carrying its raw source text, quotes included
(`ast.BasicLit`). -/
structure BasicLit where
  kind : LitKind
  value : String
deriving DecidableEq, Repr

mutual

/-- Type-expression nodes (`ast.Expr` variants inspected by the renderer).
`otherExpr` stands for every node kind outside the recognized set (the
renderer warns and yields the empty string there). The source treats a nil
`*ast.FieldList` and an empty one identically at every use site (each checks
`fl == nil || len(fl.List) == 0`), so both are modelled as the empty list. -/
inductive Expr where
  | ident (name : String)
  | selector (x : Expr) (sel : String)
  | star (x : Expr)
  | funcType (params : FieldNodeList) (results : FieldNodeList)
  | ellipsis (elt : Expr)
  | arrayType (elt : Expr)
  | mapType (key : Expr) (value : Expr)
  | structType (fields : FieldNodeList)
  | interfaceType (methods : FieldNodeList)
  | chanType (dir : ChanDir) (value : Expr)
  | otherExpr

/-- A field list (`ast.FieldList.List`). -/
inductive FieldNodeList where
  | nil
  | cons (head : FieldNode) (tail : FieldNodeList)

/-- One `ast.Field`: names, type expression, optional tag literal. -/
inductive FieldNode where
  | mk (names : List String) (typ : Expr) (tag : Option BasicLit)

end

/-- Names of an `ast.Field`. -/
def FieldNode.names : FieldNode → List String
  | .mk ns _ _ => ns

/-- Type expression of an `ast.Field`. -/
def FieldNode.typ : FieldNode → Expr
  | .mk _ t _ => t

/-- Tag literal of an `ast.Field`. -/
def FieldNode.tagLit : FieldNode → Option BasicLit
  | .mk _ _ tg => tg

/-- Conversion from a Lean list, for readable concrete inputs. -/
def FieldNodeList.ofList : List FieldNode → FieldNodeList
  | [] => .nil
  | f :: rest => .cons f (FieldNodeList.ofList rest)

/-- Size positivity, used by the termination argument of the renderer. -/
theorem FieldNodeList.sizeOf_pos (l : FieldNodeList) : 0 < sizeOf l := by
  cases l <;> simp_arith

/-- baseTypeName returns the name of the base type of x (or "") and whether
the type is imported or not (`types.go`); the unmatched node kinds fall
through to the zero values. -/
def baseTypeName : Expr → String × Bool
  | .ident name => (name, false)
  | .selector x sel =>
    match x with
    | .ident _ => (sel, true)
    | _ => ("", false)
  | .star x => baseTypeName x
  | _ => ("", false)

/-- The source calls `baseTypeName(s.Type)` on a nil expression in
`readValue`; a type switch on a nil interface matches no case and returns the
zero values. -/
def baseTypeNameOpt : Option Expr → String × Bool
  | none => ("", false)
  | some e => baseTypeName e

/-- firstName picks the first name of a name list, or "" (`types.go`). -/
def firstName (names : List String) : String :=
  match names with
  | [] => ""
  | n :: _ => n

/-- Inner loop of `typesString` (`types.go`): a strings.Builder fold that
writes ", " before every entry but the first. -/
def typesStringAux : List Var → String → String
  | [], acc => acc
  | v :: rest, acc => typesStringAux rest (acc ++ ", " ++ v.type)

/-- typesString joins the rendered types of a Var list with ", "
(`types.go`). -/
def typesString (vars : List Var) : String :=
  match vars with
  | [] => ""
  | v :: rest => typesStringAux rest v.type

/-- writeResults appends the results clause of a signature (`srcdom.go`
method `Func.writeResults`, switching on `len(fn.Results)`). -/
def writeResults (results : List Var) : String :=
  let rets := typesString results
  match results with
  | [] => ""
  | [_] => " " ++ rets
  | _ => " (" ++ rets ++ ")"

/-- Channel label chosen by the renderer (`types.go` chan case). -/
def chanLabel : ChanDir → String
  | .sendRecv => "chan"
  | .send => "chan<-"
  | .recv => "<-chan"

mutual

/-- typeString renders a type expression (`types.go`). `none` models the
source's panics (a non-function member inside a rendered interface literal);
the unsupported default warns and renders "". -/
def typeString : Expr → Option String
  | .ident name => some name
  | .selector x sel =>
    match x with
    | .ident xname => some (xname ++ "." ++ sel)
    | _ => some ""
  | .star x =>
    match typeString x with
    | none => none
    | some s => some ("*" ++ s)
  | .funcType params results =>
    match toFunc "" params results with
    | none => none
    | some fn =>
      some ("func (" ++ typesString fn.params ++ ")" ++ writeResults fn.results)
  | .ellipsis elt =>
    match typeString elt with
    | none => none
    | some s => some ("..." ++ s)
  | .arrayType elt =>
    match typeString elt with
    | none => none
    | some s => some ("[]" ++ s)
  | .mapType key value =>
    match typeString key, typeString value with
    | some k, some v => some ("map[" ++ k ++ "]" ++ v)
    | _, _ => none
  | .structType fields =>
    match fields with
    | .nil => some "struct\x7b\x7d"
    | .cons f rest =>
      match structMemberStrs (.cons f rest) with
      | none => none
      | some strs =>
        some ("struct \x7b " ++ String.intercalate "; " strs ++ " \x7d")
  | .interfaceType methods =>
    match methods with
    | .nil => some "interface\x7b\x7d"
    | .cons m rest =>
      match ifaceMemberStrs (.cons m rest) with
      | none => none
      | some strs =>
        some ("interface \x7b " ++ String.intercalate "; " strs ++ " \x7d")
  | .chanType dir value =>
    match typeString value with
    | none => none
    | some s => some (chanLabel dir ++ " " ++ s)
  | .otherExpr => some ""
termination_by e => sizeOf e
decreasing_by all_goals simp_wf <;> omega

/-- Member renderings of a struct literal: `<firstName> <type>` per field
(`types.go` struct case). -/
def structMemberStrs : FieldNodeList → Option (List String)
  | .nil => some []
  | .cons (.mk names t _) rest =>
    match typeString t, structMemberStrs rest with
    | some ts, some strs => some ((firstName names ++ " " ++ ts) :: strs)
    | _, _ => none
termination_by l => sizeOf l
decreasing_by all_goals simp_wf <;> omega

/-- Member renderings of an interface literal: a method signature per member;
a non-function member panics in the source (`types.go` interface case). -/
def ifaceMemberStrs : FieldNodeList → Option (List String)
  | .nil => some []
  | .cons (.mk names mt _) rest =>
    match mt with
    | .funcType ps rs =>
      match toFunc "" ps rs, ifaceMemberStrs rest with
      | some fn, some strs =>
        some ((firstName names ++ "(" ++ typesString fn.params ++ ")"
                ++ writeResults fn.results) :: strs)
      | _, _ => none
    | _ => none
termination_by l => sizeOf l
decreasing_by all_goals simp_wf <;> omega

/-- toVar expands one `ast.Field` into Vars: one per name, or a single
anonymous Var (`types.go`). -/
def toVar : FieldNode → Option (List Var)
  | .mk names t _ =>
    match typeString t with
    | none => none
    | some typ =>
      match names with
      | [] => some [⟨"", typ⟩]
      | ns => some (ns.map fun n => ⟨n, typ⟩)
termination_by f => sizeOf f
decreasing_by all_goals simp_wf <;> omega

/-- toVarArray flattens a field list into Vars (`types.go`). -/
def toVarArray : FieldNodeList → Option (List Var)
  | .nil => some []
  | .cons f rest =>
    match toVar f, toVarArray rest with
    | some vs, some rest' => some (vs ++ rest')
    | _, _ => none
termination_by l => sizeOf l
decreasing_by all_goals simp_wf <;> omega

/-- toFunc builds a Func from a name and a function-type node (`types.go`). -/
def toFunc (name : String) (params results : FieldNodeList) : Option Func :=
  match toVarArray params, toVarArray results with
  | some ps, some rs => some ⟨name, ps, rs⟩
  | _, _ => none
termination_by sizeOf params + sizeOf results
decreasing_by
  all_goals simp_wf
  · have := FieldNodeList.sizeOf_pos results; omega
  · have := FieldNodeList.sizeOf_pos params; omega

end

/-! Package and Type mutators (`srcdom.go`) and the declaration scanner
(`parser.go`). Pointer-mediated mutation of a `*Type` held in the package is
modelled by returning the slice index from `assureType` and updating the
types slice at that index. -/

/-- putValue appends a Value (`srcdom.go`: the Package has no value index). -/
def Package.putValue (p : Package) (v : Value) : Package :=
  { p with values := p.values ++ [v] }

/-- putFunc appends a Func and points the index at it (`srcdom.go`). -/
def Package.putFunc (p : Package) (fn : Func) : Package :=
  { p with funIdx := idxPut p.funIdx fn.name p.funcs.length
           funcs := p.funcs ++ [fn] }

/-- putType appends a Type and points the index at it (`srcdom.go`). -/
def Package.putType (p : Package) (typ : GoType) : Package :=
  { p with typIdx := idxPut p.typIdx typ.name p.types.length
           types := p.types ++ [typ] }

/-- assureType fetches the Type registered under `name`, creating and
registering a fresh one when absent (`srcdom.go`); the returned index models
the returned pointer. -/
def Package.assureType (p : Package) (name : String) : Package × Nat :=
  match idxLookup p.typIdx name with
  | some i => (p, i)
  | none => (p.putType (GoType.new name), p.types.length)

/-- In-place mutation through the pointer returned by `assureType`: update
the slice slot. Indexes handed out by `assureType` are always in range; an
out-of-range index would be a Go panic and never occurs on those. -/
def Package.modifyTypeAt (p : Package) (i : Nat) (f : GoType → GoType) : Package :=
  match p.types.get? i with
  | none => p
  | some t => { p with types := p.types.set i (f t) }

/-- putEmbed appends an embed name and points the index at it
(`srcdom.go`). -/
def GoType.putEmbed (typ : GoType) (typeName : String) : GoType :=
  { typ with embedIdx := idxPut typ.embedIdx typeName typ.embeds.length
             embeds := typ.embeds ++ [typeName] }

/-- putField appends a Field and points the index at it (`srcdom.go`). -/
def GoType.putField (typ : GoType) (f : Field) : GoType :=
  { typ with fieldIdx := idxPut typ.fieldIdx f.name typ.fields.length
             fields := typ.fields ++ [f] }

/-- putMethod appends a method Func and points the index at it
(`srcdom.go`). -/
def GoType.putMethod (typ : GoType) (fn : Func) : GoType :=
  { typ with methodIdx := idxPut typ.methodIdx fn.name typ.methods.length
             methods := typ.methods ++ [fn] }

/-- Error values of the scanner and the constraint reader, replacing the
source's `fmt.Errorf` values. -/
inductive PErr where
  | noReceivers (name : String)
  | importedReceiver (name : String)
  | unsupportedTagToken
  | unquoteFailed
  | unsupportedInterfaceMember
  | goBuildSyntax
  | notConstraint
deriving DecidableEq, Repr

/-- Declaration keyword of a `GenDecl` (`token.CONST` / `token.VAR`). -/
inductive GoTok where
  | constTok
  | varTok
deriving DecidableEq, Repr

/-- One `ast.ValueSpec`: declared names and the optional explicit type
expression. -/
structure ValueSpec where
  names : List String
  typ : Option Expr

/-- A `var`/`const` `ast.GenDecl`: keyword and specs. Non-ValueSpec specs are
warned about and skipped by the source and are not modelled. -/
structure GenDecl where
  tok : GoTok
  specs : List ValueSpec

/-- Loop body of `readValue` (`parser.go`): `prev` is initialized to "" and —
as written in the source — never reassigned; the `s.Type == nil` case calls
`baseTypeName(nil)` which always yields `("", false)`. -/
def readValueLoop (tok : GoTok) : List ValueSpec → String → Bool → Package → Package
  | [], _, _, pkg => pkg
  | s :: rest, prev, isConst, pkg =>
    let tr : String × Bool :=
      if s.typ.isNone then
        (let (n, imp) := baseTypeNameOpt s.typ
         if imp then "" else n, isConst)
      else if tok = .constTok then (prev, true)
      else ("", isConst)
    let pkg' := s.names.foldl
      (fun p nm => p.putValue ⟨nm, tr.1, tr.2⟩) pkg
    readValueLoop tok rest prev tr.2 pkg'

/-- readValue scans a var/const declaration block (`parser.go`). -/
def readValue (d : GenDecl) (isConst : Bool) (pkg : Package) : Package :=
  readValueLoop d.tok d.specs "" isConst pkg

/-- toTag decodes an optional tag literal (`parser.go`): a nil literal gives
an empty (non-nil) Tag; only string literals are accepted and their text is
unquoted before `parseTag`. Only double-quoted literal texts are modelled
(the raw-string form of `strconv.Unquote` is not exercised here). -/
def toTag (x : Option BasicLit) : Except PErr Tag :=
  match x with
  | none => .ok ⟨"", [], []⟩
  | some lit =>
    match lit.kind with
    | .otherLit => .error .unsupportedTagToken
    | .stringLit =>
      match lit.value.data with
      | '"' :: rest =>
        match scanQ rest with
        | some (inner, []) =>
          match unescape inner with
          | some chars => .ok (parseTag chars.asString)
          | none => .error .unquoteFailed
        | _ => .error .unquoteFailed
      | _ => .error .unquoteFailed

/-- toField builds a Field from an `ast.Field` (`parser.go`); the outer
`none` models a renderer panic inside `typeString`. -/
def toField (f : FieldNode) : Option (Except PErr Field) :=
  match toTag f.tagLit with
  | .error e => some (.error e)
  | .ok tag =>
    match typeString f.typ with
    | none => none
    | some ts => some (.ok ⟨firstName f.names, ts, some tag⟩)

/-- Field loop of `readStructType` (`parser.go`): an unnamed member records
an Embed of its rendered type and `break`s out of the loop; named members
become Fields. -/
def readStructTypeLoop : FieldNodeList → GoType → Option (Option PErr × GoType)
  | .nil, typ => some (none, typ)
  | .cons f rest, typ =>
    match toField f with
    | none => none
    | some (.error e) => some (some e, typ)
    | some (.ok fld) =>
      if fld.name = "" then some (none, typ.putEmbed fld.type)
      else readStructTypeLoop rest (typ.putField fld)

/-- readStructType populates a struct body (`parser.go`): it re-marks
IsStruct and runs the field loop. -/
def readStructType (fields : FieldNodeList) (typ : GoType) : Option (Option PErr × GoType) :=
  readStructTypeLoop fields { typ with isStruct := true }

/-- Member loop of `readInterfaceType` (`parser.go`): function-typed members
become methods, identifier and selector members become embeds, anything else
is a hard error. -/
def readInterfaceTypeLoop : FieldNodeList → GoType → Option (Option PErr × GoType)
  | .nil, typ => some (none, typ)
  | .cons m rest, typ =>
    match m.typ with
    | .funcType ps rs =>
      match toFunc (firstName m.names) ps rs with
      | none => none
      | some fn => readInterfaceTypeLoop rest (typ.putMethod fn)
    | .selector x sel =>
      match typeString (.selector x sel) with
      | none => none
      | some ts => readInterfaceTypeLoop rest (typ.putEmbed ts)
    | .ident n =>
      match typeString (.ident n) with
      | none => none
      | some ts => readInterfaceTypeLoop rest (typ.putEmbed ts)
    | _ => some (some .unsupportedInterfaceMember, typ)

/-- readInterfaceType populates an interface body (`parser.go`). -/
def readInterfaceType (methods : FieldNodeList) (typ : GoType) : Option (Option PErr × GoType) :=
  readInterfaceTypeLoop methods typ

/-- readTypeFields dispatches on the declared type's structure (`parser.go`):
struct and interface bodies are scanned, anything else leaves the Type
untouched beyond the flags. -/
def readTypeFields (expr : Expr) (typ : GoType) : Option (Option PErr × GoType) :=
  match expr with
  | .structType fields =>
    let typ := { typ with isStruct := true }
    (match fields with
     | .nil => some (none, typ)
     | .cons f rest => readStructType (.cons f rest) typ)
  | .interfaceType methods =>
    let typ := { typ with isInterface := true }
    (match methods with
     | .nil => some (none, typ)
     | .cons m rest => readInterfaceType (.cons m rest) typ)
  | _ => some (none, typ)

/-- One `ast.TypeSpec`: declared name and underlying type expression. -/
structure TypeSpec where
  name : String
  typ : Expr

/-- readType resolves (creating if absent) the named Type, marks it defined,
and populates its structure (`parser.go`). The `get?`-miss branch cannot
occur for indexes produced by `assureType`. -/
def readType (spec : TypeSpec) (pkg : Package) : Option (Option PErr × Package) :=
  let ai := pkg.assureType spec.name
  match ai.1.types.get? ai.2 with
  | none => none
  | some t =>
    match readTypeFields spec.typ { t with defined := true } with
    | none => none
    | some (e, t') => some (e, { ai.1 with types := ai.1.types.set ai.2 t' })

/-- An `ast.FuncDecl`: name, optional receiver field list (nil versus empty
is significant here), and the function type. -/
structure FuncDecl where
  name : String
  recv : Option FieldNodeList
  params : FieldNodeList
  results : FieldNodeList

/-- readFunc scans a function declaration (`parser.go`): an empty receiver
clause or an imported receiver type is a hard error raised before the package
is touched; otherwise the Func lands in the receiver Type's methods or in
`Package.Funcs`. -/
def readFunc (fd : FuncDecl) (pkg : Package) : Option (Option PErr × Package) :=
  match toFunc fd.name fd.params fd.results with
  | none => none
  | some f =>
    match fd.recv with
    | some recvList =>
      match recvList with
      | .nil => some (some (.noReceivers fd.name), pkg)
      | .cons fst _ =>
        let ni := baseTypeName fst.typ
        if ni.2 then some (some (.importedReceiver ni.1), pkg)
        else
          let ai := pkg.assureType ni.1
          some (none, ai.1.modifyTypeAt ai.2 (·.putMethod f))
    | none => some (none, pkg.putFunc f)

/-! Build-constraint extraction and evaluation (`read.go`:
`extractBuildDirectives`, `joinExprListWithOrExpr`, and the filtering loop of
`readDir`; the directive parsing delegated to `go/build/constraint` is
modelled after that package: `splitGoBuild`, `splitPlusBuild`,
`parsePlusBuildExpr`, and the `//go:build` expression grammar). -/

/-- Boolean constraint expressions (`constraint.Expr`). -/
inductive CExpr where
  | tag (name : String)
  | not (x : CExpr)
  | and (x y : CExpr)
  | or (x y : CExpr)
deriving DecidableEq, Repr

/-- Eval against a tag predicate (`constraint.Expr.Eval`). -/
def CExpr.eval (e : CExpr) (ok : String → Bool) : Bool :=
  match e with
  | .tag n => ok n
  | .not x => !x.eval ok
  | .and x y => x.eval ok && y.eval ok
  | .or x y => x.eval ok || y.eval ok

/-- Tag characters accepted by the constraint package's `isValidTag`
(letters, digits, underscore, dot; ASCII model). -/
def isValidTagChar (c : Char) : Bool :=
  c.isAlpha || c.isDigit || c = '_' || c = '.'

/-- Valid tag words per the constraint package. -/
def isValidTag (s : String) : Bool :=
  s ≠ "" && s.data.all isValidTagChar

/-- Space or tab, the separators of directive lines. -/
def isSpaceTab (c : Char) : Bool :=
  c = ' ' || c = '\t'

/-- Whitespace splitting of `strings.Fields` restricted to the characters
that occur in directive lines. -/
def goFields (s : String) : List String :=
  (splitWs s).filter (· ≠ "")

/-- List-level HasPrefix check (kernel-computable `strings.HasPrefix`). -/
def listPfx : List Char → List Char → Bool
  | [], _ => true
  | _ :: _, [] => false
  | a :: as, b :: bs => a = b && listPfx as bs

/-- strings.HasPrefix. -/
def strHasPfx (s pfx : String) : Bool :=
  listPfx pfx.data s.data

/-- Byte-offset drop on a string (ASCII model of Go slicing `s[n:]`). -/
def strDrop (s : String) (n : Nat) : String :=
  (s.data.drop n).asString

/-- Comma splitting of `strings.Split(s, ",")`, empties kept. -/
def splitCommaAux : List Char → List Char → List String
  | [], acc => [acc.reverse.asString]
  | ',' :: rest, acc => acc.reverse.asString :: splitCommaAux rest []
  | c :: rest, acc => splitCommaAux rest (c :: acc)

/-- strings.Split on commas. -/
def splitComma (s : String) : List String :=
  splitCommaAux s.data []

/-- One comma-separated literal of a legacy `+build` option
(`parsePlusBuildExpr`): `!!lit` and a bare `!` collapse to the impossible
tag "ignore", a leading `!` negates, invalid tag words become "ignore". -/
def plusBuildLit (lit : String) : CExpr :=
  if strHasPfx lit "!!" || lit = "!" then .tag "ignore"
  else
    let neg := strHasPfx lit "!"
    let lit' := if neg then strDrop lit 1 else lit
    let z := if isValidTag lit' then CExpr.tag lit' else CExpr.tag "ignore"
    if neg then .not z else z

/-- One space-separated option of a legacy line: the AND of its
comma-separated literals, folded left (`parsePlusBuildExpr`). -/
def plusBuildClause (clause : String) : CExpr :=
  match (splitComma clause).map plusBuildLit with
  | [] => .tag "ignore"
  | z :: zs => zs.foldl .and z

/-- parsePlusBuildExpr: the OR (folded left) of the line's space-separated
options; an empty line is the impossible tag (`go/build/constraint`). Legacy
parsing never fails. -/
def parsePlusBuildExpr (text : String) : CExpr :=
  match (goFields text).map plusBuildClause with
  | [] => .tag "ignore"
  | y :: ys => ys.foldl .or y

/-- Tokens of the `//go:build` expression grammar. -/
inductive GTok where
  | lparen
  | rparen
  | bang
  | andand
  | oror
  | tagTok (s : String)
deriving DecidableEq, Repr

/-- Lexer for `//go:build` expressions, fuelled by the input length; every
step consumes at least one character. Unexpected characters are syntax
errors, as in the constraint package. -/
def lexGoBuild : Nat → List Char → Except PErr (List GTok)
  | 0, _ => .error .goBuildSyntax
  | _, [] => .ok []
  | fuel + 1, c :: rest =>
    if isSpaceTab c then lexGoBuild fuel rest
    else if c = '(' then (lexGoBuild fuel rest).map (.lparen :: ·)
    else if c = ')' then (lexGoBuild fuel rest).map (.rparen :: ·)
    else if c = '!' then (lexGoBuild fuel rest).map (.bang :: ·)
    else if c = '&' then
      match rest with
      | '&' :: rest' => (lexGoBuild fuel rest').map (.andand :: ·)
      | _ => .error .goBuildSyntax
    else if c = '|' then
      match rest with
      | '|' :: rest' => (lexGoBuild fuel rest').map (.oror :: ·)
      | _ => .error .goBuildSyntax
    else if isValidTagChar c then
      let word := (c :: rest).takeWhile isValidTagChar
      (lexGoBuild fuel ((c :: rest).drop word.length)).map (.tagTok word.asString :: ·)
    else .error .goBuildSyntax

mutual

/-- OrExpr of the `//go:build` grammar. -/
def parseOrE : Nat → List GTok → Except PErr (CExpr × List GTok)
  | 0, _ => .error .goBuildSyntax
  | fuel + 1, toks =>
    match parseAndE fuel toks with
    | .error e => .error e
    | .ok (x, rest) => parseOrRest fuel x rest

/-- Trailing `|| AndExpr` repetitions. -/
def parseOrRest : Nat → CExpr → List GTok → Except PErr (CExpr × List GTok)
  | 0, _, _ => .error .goBuildSyntax
  | fuel + 1, x, toks =>
    match toks with
    | .oror :: rest =>
      match parseAndE fuel rest with
      | .error e => .error e
      | .ok (y, rest') => parseOrRest fuel (.or x y) rest'
    | _ => .ok (x, toks)

/-- AndExpr of the `//go:build` grammar. -/
def parseAndE : Nat → List GTok → Except PErr (CExpr × List GTok)
  | 0, _ => .error .goBuildSyntax
  | fuel + 1, toks =>
    match parseUnaryE fuel toks with
    | .error e => .error e
    | .ok (x, rest) => parseAndRest fuel x rest

/-- Trailing `&& UnaryExpr` repetitions. -/
def parseAndRest : Nat → CExpr → List GTok → Except PErr (CExpr × List GTok)
  | 0, _, _ => .error .goBuildSyntax
  | fuel + 1, x, toks =>
    match toks with
    | .andand :: rest =>
      match parseUnaryE fuel rest with
      | .error e => .error e
      | .ok (y, rest') => parseAndRest fuel (.and x y) rest'
    | _ => .ok (x, toks)

/-- UnaryExpr: negation (double negation refused, as in the constraint
package), parenthesized expression, or tag. -/
def parseUnaryE : Nat → List GTok → Except PErr (CExpr × List GTok)
  | 0, _ => .error .goBuildSyntax
  | fuel + 1, toks =>
    match toks with
    | .bang :: .bang :: _ => .error .goBuildSyntax
    | .bang :: rest =>
      match parseUnaryE fuel rest with
      | .error e => .error e
      | .ok (x, rest') => .ok (.not x, rest')
    | .lparen :: rest =>
      match parseOrE fuel rest with
      | .error e => .error e
      | .ok (x, rest') =>
        match rest' with
        | .rparen :: rest'' => .ok (x, rest'')
        | _ => .error .goBuildSyntax
    | .tagTok s :: rest => .ok (.tag s, rest)
    | _ => .error .goBuildSyntax

end

/-- parseExpr of the constraint package: lex, parse one OrExpr, and require
the input to be exhausted. -/
def parseGoBuildExpr (text : String) : Except PErr CExpr :=
  match lexGoBuild (text.length + 1) text.data with
  | .error e => .error e
  | .ok toks =>
    match parseOrE (toks.length + 1) toks with
    | .error e => .error e
    | .ok (x, []) => .ok x
    | .ok (_, _ :: _) => .error .goBuildSyntax

/-- Trim of spaces and tabs at both ends, modelling `strings.TrimSpace` on
directive lines. -/
def goTrim (s : String) : String :=
  ((s.data.dropWhile isSpaceTab).reverse.dropWhile isSpaceTab).reverse.asString

/-- splitGoBuild of the constraint package: the text of a well-formed
`//go:build` line, or `none`. -/
def splitGoBuild (line : String) : Option String :=
  if strHasPfx line "//go:build" then
    let l := strDrop (goTrim line) 10
    let t := goTrim l
    if l.length = t.length && l ≠ "" then none else some t
  else none

/-- splitPlusBuild of the constraint package: the text of a well-formed
legacy `// +build` line, or `none`. -/
def splitPlusBuild (line : String) : Option String :=
  if strHasPfx line "//" then
    let l := goTrim (strDrop line 2)
    if strHasPfx l "+build" then
      let rest := strDrop l 6
      if rest = "" || strHasPfx rest " " || strHasPfx rest "\t" then some rest
      else none
    else none
  else none

/-- constraint.IsGoBuild. -/
def isGoBuild (line : String) : Bool :=
  (splitGoBuild line).isSome

/-- constraint.IsPlusBuild. -/
def isPlusBuild (line : String) : Bool :=
  (splitPlusBuild line).isSome

/-- constraint.Parse: a `//go:build` line parses through the expression
grammar (and can fail); a legacy line parses through `parsePlusBuildExpr`
(and cannot); anything else is not a constraint. -/
def constraintParse (line : String) : Except PErr CExpr :=
  match splitGoBuild line with
  | some text => parseGoBuildExpr text
  | none =>
    match splitPlusBuild line with
    | some text => .ok (parsePlusBuildExpr text)
    | none => .error .notConstraint

/-- joinExprListWithOrExpr (`read.go`): right-nested OR of the collected
legacy expressions; the source never calls it on an empty list, hence the
head/tail signature. -/
def joinExprListWithOrExpr (x : CExpr) (rest : List CExpr) : CExpr :=
  match rest with
  | [] => x
  | y :: ys => .or x (joinExprListWithOrExpr y ys)

/-- One comment group (`ast.CommentGroup`): position of its first comment and
the comment texts. -/
structure CommentGroup where
  pos : Nat
  list : List String
deriving DecidableEq, Repr

/-- The slice of an `ast.File` that constraint extraction looks at: the
position of the `package` keyword and the comment groups. -/
structure BFile where
  packagePos : Nat
  comments : List CommentGroup
deriving DecidableEq, Repr

/-- Comment loop of `extractBuildDirectives` (`read.go`): a `//go:build`
line returns its parse immediately; legacy lines are parsed (errors
propagate) and collected. `inr` carries the short-circuit result. -/
def scanComments : List String → List CExpr → Except PErr (List CExpr ⊕ CExpr)
  | [], acc => .ok (.inl acc)
  | c :: rest, acc =>
    if isGoBuild c then
      match constraintParse c with
      | .error e => .error e
      | .ok e => .ok (.inr e)
    else if isPlusBuild c then
      match constraintParse c with
      | .error e => .error e
      | .ok e => scanComments rest (acc ++ [e])
    else scanComments rest acc

/-- Group loop of `extractBuildDirectives` (`read.go`): only groups before
the package clause are eligible. -/
def scanGroups : List CommentGroup → Nat → List CExpr → Except PErr (List CExpr ⊕ CExpr)
  | [], _, acc => .ok (.inl acc)
  | g :: rest, pkgPos, acc =>
    if g.pos ≥ pkgPos then .ok (.inl acc)
    else
      match scanComments g.list acc with
      | .error e => .error e
      | .ok (.inr e) => .ok (.inr e)
      | .ok (.inl acc') => scanGroups rest pkgPos acc'

/-- extractBuildDirectives (`read.go`): the first `//go:build` wins; else the
OR of all legacy lines; else no constraint. -/
def extractBuildDirectives (f : BFile) : Except PErr (Option CExpr) :=
  match scanGroups f.comments f.packagePos [] with
  | .error e => .error e
  | .ok (.inr e) => .ok (some e)
  | .ok (.inl []) => .ok none
  | .ok (.inl (x :: xs)) => .ok (some (joinExprListWithOrExpr x xs))

/-- The per-file filtering loop of `readDir` (`read.go`): extraction errors
abort the whole read; a file with no constraint stays; otherwise it stays
iff the constraint evaluates true against the tag set. -/
def filterFiles (files : List (String × BFile)) (tags : List String) :
    Except PErr (List (String × BFile)) :=
  match files with
  | [] => .ok []
  | (n, f) :: rest =>
    match extractBuildDirectives f with
    | .error e => .error e
    | .ok none =>
      match filterFiles rest tags with
      | .error e => .error e
      | .ok kept => .ok ((n, f) :: kept)
    | .ok (some ex) =>
      match filterFiles rest tags with
      | .error e => .error e
      | .ok kept =>
        if ex.eval (fun t => tags.contains t) then .ok ((n, f) :: kept)
        else .ok kept

/-- Specification-side inclusion predicate: a file participates iff its
constraint is absent or evaluates true. -/
def included (f : BFile) (tags : List String) : Bool :=
  match extractBuildDirectives f with
  | .ok none => true
  | .ok (some e) => e.eval (fun t => tags.contains t)
  | .error _ => false

/-! Specification-side definitions and helper lemmas. -/

/-- Comma-joined list of rendered strings, written from the spec's
"comma-joined rendered results". -/
def commaJoin : List String → String
  | [] => ""
  | [s] => s
  | s :: rest => s ++ ", " ++ commaJoin rest

/-- Results clause exactly as the spec words it: nothing for 0 results, a
space and the rendered result for 1, a space and the parenthesized
comma-join for 2 or more. -/
def resultsClauseSpec (results : List Var) : String :=
  match results with
  | [] => ""
  | [r] => " " ++ r.type
  | rs => " (" ++ commaJoin (rs.map Var.type) ++ ")"

/-- Tail of a comma join: each further element preceded by ", ". -/
def commaTail : List Var → String
  | [] => ""
  | v :: rest => ", " ++ v.type ++ commaTail rest

theorem typesStringAux_eq (rest : List Var) :
    ∀ acc : String, typesStringAux rest acc = acc ++ commaTail rest := by
  induction rest with
  | nil => intro acc; simp [typesStringAux, commaTail]
  | cons v r ih =>
    intro acc
    simp [typesStringAux, commaTail, ih, String.append_assoc]

/-- Tail of a comma join over plain strings. -/
def strTail : List String → String
  | [] => ""
  | t :: r => ", " ++ t ++ strTail r

theorem commaJoin_cons (l : List String) :
    ∀ s : String, commaJoin (s :: l) = s ++ strTail l := by
  induction l with
  | nil => intro s; simp [commaJoin, strTail]
  | cons t r ih =>
    intro s
    rw [show commaJoin (s :: t :: r) = s ++ ", " ++ commaJoin (t :: r) from rfl,
      ih t, strTail]
    simp [String.append_assoc]

theorem commaTail_eq_strTail (vars : List Var) :
    commaTail vars = strTail (vars.map Var.type) := by
  induction vars with
  | nil => rfl
  | cons v r ih => rw [commaTail, List.map_cons, strTail, ih]

theorem typesString_eq_commaJoin (vars : List Var) :
    typesString vars = commaJoin (vars.map Var.type) := by
  cases vars with
  | nil => rfl
  | cons v rest =>
    rw [typesString, typesStringAux_eq, List.map_cons, commaJoin_cons,
      commaTail_eq_strTail]

/-- writeResults agrees with the spec's results-clause law for every Var
list; shared bridge lemma. -/
theorem writeResults_eq_spec (results : List Var) :
    writeResults results = resultsClauseSpec results := by
  match results with
  | [] => rfl
  | [r] => rfl
  | r1 :: r2 :: rest =>
    show " (" ++ typesString (r1 :: r2 :: rest) ++ ")" = _
    rw [typesString_eq_commaJoin]
    rfl

/-! Claim theorems. -/

/-- C1 (code bug): on the `const ( A int = 1; B; C = "x" )`-shaped block the
scanner records the empty string as every name's type — the explicit `int`
is never picked up (the `s.Type == nil` case calls `baseTypeName(nil)`,
which always yields "", and `prev` is never assigned), contradicting the
specified const-iota inheritance that would give A and B type "int". -/
theorem readValue_const_block_drops_types :
    (readValue
        ⟨.constTok,
          [⟨["A"], some (.ident "int")⟩, ⟨["B"], none⟩, ⟨["C"], none⟩]⟩
        true (Package.new "p")).values =
      [⟨"A", "", true⟩, ⟨"B", "", true⟩, ⟨"C", "", true⟩] := by
  decide

/-- C4 counterexample: `match("json", "name,omitempty")` is true, not false —
whitespace-only splitting leaves "name,omitempty" as a single token, which
the exact-token query then finds. -/
theorem tag_match_comma_token_cex :
    (parseTag "json:\"name,omitempty\" xml:\"Name\"").matchKV
        "json" (some "name,omitempty") = true := by
  decide

/-- C4 (amended): parsing the tag yields exactly the entries `json` and
`xml`; the presence-only query is true, the empty-value query is false, the
full single-token value "name,omitempty" matches (commas are not
separators), and the would-be sub-tokens "name" and "omitempty" do not. -/
theorem parseTag_json_xml_queries :
    (parseTag "json:\"name,omitempty\" xml:\"Name\"").values.map TagValue.name
        = ["json", "xml"]
    ∧ (parseTag "json:\"name,omitempty\" xml:\"Name\"").matchKV "json" none = true
    ∧ (parseTag "json:\"name,omitempty\" xml:\"Name\"").matchKV "json" (some "") = false
    ∧ (parseTag "json:\"name,omitempty\" xml:\"Name\"").matchKV "json"
        (some "name,omitempty") = true
    ∧ (parseTag "json:\"name,omitempty\" xml:\"Name\"").matchKV "json" (some "name") = false
    ∧ (parseTag "json:\"name,omitempty\" xml:\"Name\"").matchKV "json"
        (some "omitempty") = false := by
  decide

/-- C9: the found flag of `Tag.TagValue` is false in both branches of the
source, so it never reports a successful lookup; the first result is the
indexed entry when the key is present and nil (none) otherwise. -/
theorem tagValue_found_flag_always_false (tag : Tag) (n : String) :
    (tag.tagValueFn n).2 = false
    ∧ (tag.tagValueFn n).1
        = (idxLookup tag.valueIdx n).bind (fun i => tag.values.get? i) := by
  unfold Tag.tagValueFn
  cases idxLookup tag.valueIdx n <;> simp

/-- C10: `FieldsByTag` never parses its query — the source matches every
field against the zero values (empty tag name, no value constraint) — so its
result is independent of the query string. -/
theorem fieldsByTag_query_independent (typ : GoType) (q1 q2 : String) :
    typ.fieldsByTag q1 = typ.fieldsByTag q2
    ∧ typ.fieldsByTag q1 = typ.fields.filter (fun f =>
        match f.tag with
        | none => false
        | some t => t.matchKV "" none) :=
  ⟨rfl, rfl⟩

/-- C6: the rendered results clause — for function types and for
interface-literal method signatures alike — is empty for 0 results, a space
plus the rendered result for exactly 1, and a space plus the parenthesized
comma-join for 2 or more. -/
theorem results_clause_law :
    (∀ results : List Var, writeResults results = resultsClauseSpec results)
    ∧ (∀ (ps rs : FieldNodeList) (f : Func), toFunc "" ps rs = some f →
        typeString (.funcType ps rs)
          = some ("func (" ++ typesString f.params ++ ")"
              ++ resultsClauseSpec f.results))
    ∧ (∀ (m : String) (ps rs : FieldNodeList) (f : Func), toFunc "" ps rs = some f →
        typeString (.interfaceType (.cons (.mk [m] (.funcType ps rs) none) .nil))
          = some ("interface \x7b "
              ++ (m ++ "(" ++ typesString f.params ++ ")"
                    ++ resultsClauseSpec f.results)
              ++ " \x7d")) := by
  refine ⟨writeResults_eq_spec, ?_, ?_⟩
  · intro ps rs f hf
    simp only [typeString, hf, writeResults_eq_spec]
  · intro m ps rs f hf
    simp only [typeString, ifaceMemberStrs, hf, writeResults_eq_spec,
      FieldNode.names, firstName, String.intercalate, String.intercalate.go]

/-- Witness for C6: a concrete two-result function type renders with the
parenthesized clause. -/
theorem results_clause_law_witness :
    typeString (.funcType
        (FieldNodeList.ofList [.mk ["a"] (.ident "int") none])
        (FieldNodeList.ofList [.mk [] (.ident "bool") none,
                               .mk [] (.ident "string") none]))
      = some ("func (" ++ typesString [⟨"a", "int"⟩] ++ ")"
          ++ resultsClauseSpec [⟨"", "bool"⟩, ⟨"", "string"⟩]) :=
  results_clause_law.2.1 _ _ ⟨"", [⟨"a", "int"⟩], [⟨"", "bool"⟩, ⟨"", "string"⟩]⟩
    (by simp [toFunc, toVarArray, toVar, typeString, FieldNodeList.ofList])

/-- C5: a function declaration with a receiver whose clause is empty or
whose type is imported/qualified is rejected with a hard error, the package
coming back in its pre-call state. -/
theorem readFunc_bad_receiver (pkg : Package) (fd : FuncDecl) (f : Func)
    (hf : toFunc fd.name fd.params fd.results = some f)
    (hbad : fd.recv = some .nil
        ∨ ∃ fst rest, fd.recv = some (.cons fst rest)
            ∧ (baseTypeName fst.typ).2 = true) :
    ∃ e, readFunc fd pkg = some (some e, pkg) := by
  rcases hbad with h | ⟨fst, rest, h, himp⟩
  · exact ⟨.noReceivers fd.name, by simp only [readFunc, hf, h]⟩
  · exact ⟨.importedReceiver (baseTypeName fst.typ).1,
      by simp only [readFunc, hf, h, himp, if_true]⟩

/-- Witness for C5: a method on the qualified receiver type `pkg.T` is
rejected and the empty package is unchanged. -/
theorem readFunc_bad_receiver_witness :
    ∃ e, readFunc
        ⟨"M", some (.cons (.mk [] (.selector (.ident "pkg") "T") none) .nil),
          .nil, .nil⟩
        (Package.new "p")
      = some (some e, Package.new "p") :=
  readFunc_bad_receiver _ _ ⟨"M", [], []⟩
    (by simp [toFunc, toVarArray])
    (Or.inr ⟨_, _, rfl, by simp [baseTypeName, FieldNode.typ]⟩)

/-- Specification-side conversion of a prefix of named struct members: every
member must convert without error and carry a nonempty name. -/
def toFieldsNamed : List FieldNode → Option (List Field)
  | [] => some []
  | f :: rest =>
    match toField f with
    | some (.ok fld) =>
      if fld.name = "" then none
      else
        match toFieldsNamed rest with
        | some l => some (fld :: l)
        | none => none
    | _ => none

/-- Shared loop lemma for C2: with named members `pre` before the first
unnamed member `emb`, the field loop records `pre` as Fields in order, then
records an Embed of `emb`'s rendered type and stops — everything in `post`
is never examined. -/
theorem readStructTypeLoop_stops (pre : List FieldNode) (emb : FieldNode)
    (post : List FieldNode) (embField : Field)
    (hemb : toField emb = some (.ok embField)) (hname : embField.name = "") :
    ∀ (typ : GoType) (preFields : List Field),
      toFieldsNamed pre = some preFields →
      readStructTypeLoop (FieldNodeList.ofList (pre ++ emb :: post)) typ
        = some (none, (preFields.foldl GoType.putField typ).putEmbed embField.type) := by
  induction pre with
  | nil =>
    intro typ preFields hpre
    simp only [toFieldsNamed, Option.some.injEq] at hpre
    subst hpre
    simp only [List.nil_append, FieldNodeList.ofList, readStructTypeLoop, hemb,
      hname, if_true, List.foldl_nil]
  | cons f pre' ih =>
    intro typ preFields hpre
    simp only [toFieldsNamed] at hpre
    rcases hf : toField f with _ | fld
    · rw [hf] at hpre; exact absurd hpre (by simp)
    rcases fld with e | fld
    · rw [hf] at hpre; exact absurd hpre (by simp)
    rw [hf] at hpre
    simp only at hpre
    rcases hn : decide (fld.name = "") with _ | _
    · rw [if_neg (by simpa using hn)] at hpre
      rcases hrest : toFieldsNamed pre' with _ | l
      · rw [hrest] at hpre; exact absurd hpre (by simp)
      rw [hrest] at hpre
      simp only [Option.some.injEq] at hpre
      subst hpre
      simp only [List.cons_append, FieldNodeList.ofList, readStructTypeLoop, hf,
        if_neg (by simpa using hn), List.foldl_cons]
      exact ih (typ.putField fld) l hrest
    · rw [if_pos (by simpa using hn)] at hpre
      exact absurd hpre (by simp)

/-- C2 (amended): the struct-body scanner records named members as Fields
only until the first unnamed member; that member is recorded as an Embed
keyed by its rendered type string, and the scan stops there — members after
it, named or not, are never recorded. -/
theorem readStructType_stops_at_first_embed (pre : List FieldNode)
    (emb : FieldNode) (post : List FieldNode) (typ : GoType)
    (preFields : List Field) (embField : Field)
    (hpre : toFieldsNamed pre = some preFields)
    (hemb : toField emb = some (.ok embField)) (hname : embField.name = "") :
    readStructType (FieldNodeList.ofList (pre ++ emb :: post)) typ
      = some (none,
          (preFields.foldl GoType.putField { typ with isStruct := true }).putEmbed
            embField.type) :=
  readStructTypeLoop_stops pre emb post embField hemb hname _ preFields hpre

/-- Witness for C2's amended statement at a concrete struct shape. -/
theorem readStructType_stops_witness :
    readStructType (FieldNodeList.ofList
        [.mk ["A"] (.ident "int") none, .mk [] (.star (.ident "T")) none,
          .mk ["B"] (.ident "bool") none])
        (GoType.new "S")
      = some (none,
          (([⟨"A", "int", some ⟨"", [], []⟩⟩] : List Field).foldl GoType.putField
              { GoType.new "S" with isStruct := true }).putEmbed "*T") :=
  readStructType_stops_at_first_embed
    [.mk ["A"] (.ident "int") none] (.mk [] (.star (.ident "T")) none)
    [.mk ["B"] (.ident "bool") none] (GoType.new "S")
    [⟨"A", "int", some ⟨"", [], []⟩⟩] ⟨"", "*T", some ⟨"", [], []⟩⟩
    (by simp [toFieldsNamed, toField, toTag, typeString, firstName,
      FieldNode.names, FieldNode.typ, FieldNode.tagLit])
    (by simp [toField, toTag, typeString, firstName, FieldNode.names,
      FieldNode.typ, FieldNode.tagLit])
    rfl

/-- C2 counterexample: in `struct \x7b *T; A int \x7d` the named field `A`
follows the first unnamed member; the declaration scanner records the Embed
"*T" (the rendered type string, not the base name "T") and *no* Fields at
all, refuting "named fields always become Fields, regardless of their
position relative to an embedded member". -/
theorem struct_named_after_embed_cex :
    (readType
        ⟨"S", .structType (.ofList
          [.mk [] (.star (.ident "T")) none, .mk ["A"] (.ident "int") none])⟩
        (Package.new "p")).map
        (fun r => (r.1, r.2.types.map fun t => (t.fields, t.embeds)))
      = some (none, [([], ["*T"])]) := by
  simp [readType, Package.assureType, idxLookup, Package.putType, idxPut,
    GoType.new, Package.new, readTypeFields, readStructType, readStructTypeLoop,
    toField, toTag, typeString, FieldNodeList.ofList, GoType.putEmbed,
    GoType.putField, firstName, FieldNode.names, FieldNode.typ, FieldNode.tagLit]

/-! List helper lemmas for the index/slice reasoning of C7. -/

theorem listGetConcat {α : Type} (l : List α) (x : α) :
    (l ++ [x]).get? l.length = some x := by
  induction l with
  | nil => rfl
  | cons a r ih => simpa using ih

theorem listSetConcat {α : Type} (l : List α) (x y : α) :
    (l ++ [x]).set l.length y = l ++ [y] := by
  induction l with
  | nil => rfl
  | cons a r ih => simpa using ih

theorem listSetGet {α : Type} (l : List α) (i : Nat) (x : α) (h : i < l.length) :
    (l.set i x).get? i = some x := by
  induction l generalizing i with
  | nil => simp at h
  | cons a r ih =>
    cases i with
    | zero => rfl
    | succ j => simpa using ih j (by simpa using h)

theorem listSetSet {α : Type} (l : List α) (i : Nat) (x y : α) :
    (l.set i x).set i y = l.set i y := by
  induction l generalizing i with
  | nil => rfl
  | cons a r ih =>
    cases i with
    | zero => rfl
    | succ j => simpa using ih j

theorem idxLookup_mem (m : Idx) (k : String) (v : Nat)
    (h : idxLookup m k = some v) : (k, v) ∈ m := by
  induction m with
  | nil => simp [idxLookup] at h
  | cons kv rest ih =>
    rcases kv with ⟨k', v'⟩
    rw [idxLookup] at h
    by_cases hk : k' = k
    · rw [if_pos hk] at h
      cases h
      subst hk
      exact List.mem_cons_self _ _
    · rw [if_neg hk] at h
      exact List.mem_cons_of_mem _ (ih h)

/-- Index/slice consistency: every index entry points at an in-range slot
holding a type of that name. Holds for every package the scanner builds. -/
def PkgWF (p : Package) : Prop :=
  ∀ kv ∈ p.typIdx, (p.types.get? kv.2).map GoType.name = some kv.1

/-- C7: assureType is an idempotent create-or-fetch accessor: a missing name
appends exactly one placeholder and indexes it; a present name fetches the
same slot with no change at all; a second call is a no-op returning the same
slot; and a method attached through `assureType` before the type's
declaration is still present, on the same (now defined) type, after the
declaration is processed, the types collection gaining no second entry. -/
theorem assureType_create_or_fetch (pkg : Package) (n : String) (hwf : PkgWF pkg) :
    (idxLookup pkg.typIdx n = none →
        (pkg.assureType n).1.types = pkg.types ++ [GoType.new n]
        ∧ (pkg.assureType n).2 = pkg.types.length
        ∧ idxLookup (pkg.assureType n).1.typIdx n = some pkg.types.length)
    ∧ (∀ i, idxLookup pkg.typIdx n = some i → pkg.assureType n = (pkg, i))
    ∧ (pkg.assureType n).1.assureType n
        = ((pkg.assureType n).1, (pkg.assureType n).2)
    ∧ (∀ mname : String,
        ∃ pa pb i,
          readFunc ⟨mname, some (.cons (.mk [] (.ident n) none) .nil), .nil, .nil⟩
              pkg
            = some (none, pa)
          ∧ readType ⟨n, .structType .nil⟩ pa = some (none, pb)
          ∧ idxLookup pb.typIdx n = some i
          ∧ (∃ t, pb.types.get? i = some t
              ∧ Func.mk mname [] [] ∈ t.methods ∧ t.defined = true)
          ∧ pb.types.length = pa.types.length) := by
  have htf : ∀ mname : String,
      toFunc mname .nil .nil = some ⟨mname, [], []⟩ := by
    intro mname; simp [toFunc, toVarArray]
  rcases hla : idxLookup pkg.typIdx n with _ | i
  · -- absent: a placeholder is created
    refine ⟨?_, ?_, ?_, ?_⟩
    · intro _
      refine ⟨?_, ?_, ?_⟩
      · simp [Package.assureType, hla, Package.putType]
      · simp [Package.assureType, hla]
      · simp [Package.assureType, hla, Package.putType, idxPut, idxLookup,
          GoType.new]
    · intro j hj
      simp at hj
    · simp [Package.assureType, hla, Package.putType, idxPut, idxLookup,
        GoType.new]
    · intro mname
      have h1 : readFunc
          ⟨mname, some (.cons (.mk [] (.ident n) none) .nil), .nil, .nil⟩ pkg
          = some (none, { pkg with
              typIdx := idxPut pkg.typIdx n pkg.types.length
              types := pkg.types
                ++ [(GoType.new n).putMethod ⟨mname, [], []⟩] }) := by
        simp [readFunc, htf mname, baseTypeName, FieldNode.typ,
          Package.assureType, hla, Package.modifyTypeAt, Package.putType,
          listGetConcat, listSetConcat, GoType.new]
      have h2 : readType ⟨n, .structType .nil⟩
          ({ pkg with
              typIdx := idxPut pkg.typIdx n pkg.types.length
              types := pkg.types
                ++ [(GoType.new n).putMethod ⟨mname, [], []⟩] })
          = some (none, { pkg with
              typIdx := idxPut pkg.typIdx n pkg.types.length
              types := pkg.types
                ++ [{ (GoType.new n).putMethod ⟨mname, [], []⟩ with
                      defined := true, isStruct := true }] }) := by
        simp [readType, Package.assureType, idxPut, idxLookup,
          listGetConcat, listSetConcat, readTypeFields]
      refine ⟨_, _, pkg.types.length, h1, h2, ?_, ?_, ?_⟩
      · simp [idxPut, idxLookup]
      · refine ⟨_, listGetConcat _ _, ?_, rfl⟩
        simp [GoType.new, GoType.putMethod]
      · simp
  · -- present: the existing slot is reused
    have hmem := idxLookup_mem _ _ _ hla
    have hni := hwf _ hmem
    rcases ht : pkg.types.get? i with _ | t
    · rw [ht] at hni; cases hni
    rw [ht] at hni
    have hil : i < pkg.types.length := by
      rcases Nat.lt_or_ge i pkg.types.length with h | h
      · exact h
      · rw [List.get?_eq_none.mpr h] at ht; cases ht
    refine ⟨?_, ?_, ?_, ?_⟩
    · intro hno
      simp at hno
    · intro j hj
      injection hj with hij
      subst hij
      simp [Package.assureType, hla]
    · simp [Package.assureType, hla]
    · intro mname
      have ht' : pkg.types[i]? = some t := by
        rw [← List.get?_eq_getElem?]; exact ht
      have hg1' : (pkg.types.set i (t.putMethod ⟨mname, [], []⟩))[i]?
          = some (t.putMethod ⟨mname, [], []⟩) := by
        rw [← List.get?_eq_getElem?]
        exact listSetGet pkg.types i (t.putMethod ⟨mname, [], []⟩) hil
      have h1 : readFunc
          ⟨mname, some (.cons (.mk [] (.ident n) none) .nil), .nil, .nil⟩ pkg
          = some (none, { pkg with
              types := pkg.types.set i (t.putMethod ⟨mname, [], []⟩) }) := by
        simp [readFunc, htf mname, baseTypeName, FieldNode.typ,
          Package.assureType, hla, Package.modifyTypeAt, ht']
      have h2 : readType ⟨n, .structType .nil⟩
          ({ pkg with types := pkg.types.set i (t.putMethod ⟨mname, [], []⟩) })
          = some (none, { pkg with
              types := pkg.types.set i
                { t.putMethod ⟨mname, [], []⟩ with
                  defined := true, isStruct := true } }) := by
        simp [readType, Package.assureType, hla, Package.modifyTypeAt, hg1',
          readTypeFields, listSetSet]
      refine ⟨_, _, i, h1, h2, hla, ?_, ?_⟩
      · refine ⟨{ t.putMethod ⟨mname, [], []⟩ with
            defined := true, isStruct := true }, ?_, ?_, rfl⟩
        · exact listSetGet _ _ _ (by simpa using hil)
        · simp [GoType.putMethod]
      · simp

/-- Witness for C7: the empty package is well-formed and the accessor is
idempotent on it. -/
theorem assureType_create_or_fetch_witness :
    PkgWF (Package.new "p")
    ∧ ((Package.new "p").assureType "T").1.assureType "T"
        = (((Package.new "p").assureType "T").1,
            ((Package.new "p").assureType "T").2) :=
  ⟨by intro kv hkv; simp [Package.new] at hkv,
    (assureType_create_or_fetch (Package.new "p") "T"
        (by intro kv hkv; simp [Package.new] at hkv)).2.2.1⟩

deriving instance DecidableEq for Except

/-- C3 (amended): when the directory filter succeeds, a file survives iff
its constraint is absent or evaluates true against the tag set; and the
legacy constraint `// +build amd64 linux` — space being OR in legacy
directives — includes the file both against \x7bamd64\x7d alone and against
\x7bamd64, linux\x7d. -/
theorem filterFiles_inclusion :
    (∀ (files : List (String × BFile)) (tags : List String)
        (kept : List (String × BFile)),
        filterFiles files tags = .ok kept →
        kept = files.filter (fun nf => included nf.2 tags))
    ∧ included ⟨10, [⟨0, ["// +build amd64 linux"]⟩]⟩ ["amd64"] = true
    ∧ included ⟨10, [⟨0, ["// +build amd64 linux"]⟩]⟩ ["amd64", "linux"] = true := by
  refine ⟨?_, by decide, by decide⟩
  intro files tags
  induction files with
  | nil =>
    intro kept h
    rw [filterFiles] at h
    cases h
    rfl
  | cons nf rest ih =>
    intro kept h
    rcases nf with ⟨nm, f⟩
    rw [filterFiles] at h
    rcases hx : extractBuildDirectives f with e | oe
    · rw [hx] at h; cases h
    · rw [hx] at h
      rcases oe with _ | ex
      · dsimp only at h
        rcases hr : filterFiles rest tags with e | kept'
        · rw [hr] at h; cases h
        · rw [hr] at h
          dsimp only at h
          cases h
          simp [List.filter_cons, included, hx, ih _ hr]
      · dsimp only at h
        rcases hr : filterFiles rest tags with e | kept'
        · rw [hr] at h; cases h
        · rw [hr] at h
          dsimp only at h
          rcases hev : ex.eval (fun t => tags.contains t) with _ | _
          · rw [hev] at h
            simp only [Bool.false_eq_true, if_false] at h
            cases h
            have hev' : (ex.eval fun t => decide (t ∈ tags)) = false := by
              simpa using hev
            simp [List.filter_cons, included, hx, hev', ih _ hr]
          · rw [hev] at h
            simp only [if_true] at h
            cases h
            have hev' : (ex.eval fun t => decide (t ∈ tags)) = true := by
              simpa using hev
            simp [List.filter_cons, included, hx, hev', ih _ hr]

/-- C3 counterexample: against the tag set \x7bamd64\x7d alone, a file
constrained by `// +build amd64 linux` is *included* (legacy space is OR),
not excluded as the claim states. -/
theorem build_amd64_linux_included_cex :
    filterFiles [("a.go", ⟨10, [⟨0, ["// +build amd64 linux"]⟩]⟩)] ["amd64"]
      = .ok [("a.go", ⟨10, [⟨0, ["// +build amd64 linux"]⟩]⟩)] := by
  decide

/-- Witness for C3: the general inclusion law applied to the concrete
one-file directory above. -/
theorem filterFiles_inclusion_witness :
    ([(("a.go" : String), (⟨10, [⟨0, ["// +build amd64 linux"]⟩]⟩ : BFile))].filter
        (fun nf => included nf.2 ["amd64"]))
      = [("a.go", ⟨10, [⟨0, ["// +build amd64 linux"]⟩]⟩)] :=
  (filterFiles_inclusion.1 [("a.go", ⟨10, [⟨0, ["// +build amd64 linux"]⟩]⟩)]
    ["amd64"] [("a.go", ⟨10, [⟨0, ["// +build amd64 linux"]⟩]⟩)]
    (by decide)).symm

/-- C8: a build-directive parse failure is propagated by the directory
filter as a hard error (no silent inclusion or exclusion), and such
failures are reachable — a malformed `//go:build` line makes
`extractBuildDirectives` fail. -/
theorem directive_parse_error_propagates :
    (∀ (files : List (String × BFile)) (tags : List String) (nm : String)
        (f : BFile) (e : PErr),
        (nm, f) ∈ files → extractBuildDirectives f = .error e →
        ∃ e', filterFiles files tags = .error e')
    ∧ extractBuildDirectives ⟨10, [⟨0, ["//go:build linux &&"]⟩]⟩
        = .error .goBuildSyntax := by
  refine ⟨?_, by decide⟩
  intro files tags nm f e hmem hext
  induction files with
  | nil => cases hmem
  | cons nf rest ih =>
    rcases List.mem_cons.mp hmem with heq | hmem'
    · refine ⟨e, ?_⟩
      rw [filterFiles, ← heq, hext]
    · rcases ih hmem' with ⟨e', he'⟩
      rcases nf with ⟨nm2, f2⟩
      rcases hx : extractBuildDirectives f2 with e2 | oe
      · exact ⟨e2, by rw [filterFiles, hx]⟩
      · rcases oe with _ | ex
        · exact ⟨e', by rw [filterFiles, hx, he']⟩
        · exact ⟨e', by rw [filterFiles, hx, he']⟩

/-- Witness for C8: the malformed `//go:build linux &&` directive makes the
one-file directory read fail with a hard error. -/
theorem directive_parse_error_propagates_witness :
    ∃ e', filterFiles [("bad.go", ⟨10, [⟨0, ["//go:build linux &&"]⟩]⟩)] []
        = .error e' :=
  directive_parse_error_propagates.1
    [("bad.go", ⟨10, [⟨0, ["//go:build linux &&"]⟩]⟩)] [] "bad.go"
    ⟨10, [⟨0, ["//go:build linux &&"]⟩]⟩ .goBuildSyntax
    (List.mem_singleton.mpr rfl) (by decide)

end Srcdom
